import Mathlib

/-!
Shallow embedding of the LRU cache in src/lru/src/main.rs.

Heap-allocated, reference-counted nodes (Rc<RefCell<Node>>) are modelled by a
store: a list of node records addressed by allocation index.  Every NodeRef in
the Rust program is an index into that store; reads and writes of a node's
fields become reads and writes of the indexed record, performed in the same
order as the source statements (this preserves the aliasing behaviour of the
shared mutable cells).  The usize decrement self.size -= 1 panics on underflow
in Rust, so the operations that perform it return Option, with none standing
for the panic.  HashMap<K, NodeRef> is modelled as an association list with
Rust's insert (replace-and-return-old) / remove / get semantics; iteration
order is never observed by the program.
-/

set_option linter.unusedSectionVars false

namespace LRUModel

structure Node (K V : Type) where
  key : K
  value : V
  next : Option Nat
  prev : Option Nat
  deriving DecidableEq, Repr

abbrev Store (K V : Type) := List (Node K V)

variable {K V : Type} [DecidableEq K] [Inhabited K] [Inhabited V]

instance : Inhabited (Node K V) := ⟨⟨default, default, none, none⟩⟩

/-- Dereference a NodeRef: read the node record at index i. -/
def readNode (st : Store K V) (i : Nat) : Node K V :=
  st.getD i default

/-- node.borrow_mut().next = nxt -/
def setNext (st : Store K V) (i : Nat) (nxt : Option Nat) : Store K V :=
  st.set i { readNode st i with next := nxt }

/-- node.borrow_mut().prev = p -/
def setPrev (st : Store K V) (i : Nat) (p : Option Nat) : Store K V :=
  st.set i { readNode st i with prev := p }

/-- DoublyLinkedList<K, V>: head and tail NodeRefs and a size counter. -/
structure DoublyLinkedList where
  head : Option Nat
  tail : Option Nat
  size : Nat
  deriving DecidableEq, Repr

namespace DoublyLinkedList

/-- DoublyLinkedList::init() -/
def init : DoublyLinkedList := ⟨none, none, 0⟩

/-- DoublyLinkedList::insert_node(new_head, new_node).  The store holds the
nodes; newHead is the NodeRef argument. -/
def insert_node (st : Store K V) (l : DoublyLinkedList) (newHead : Nat)
    (newNode : Bool) : Store K V × DoublyLinkedList :=
  match l.head with
  | some prev =>
      let st1 := setPrev st prev (some newHead)
      let st2 := setNext st1 newHead (some prev)
      let l1 := if l.size = 1 then { l with tail := some prev } else l
      (st2, { l1 with head := some newHead,
                      size := if newNode then l1.size + 1 else l1.size })
  | none =>
      (st, { l with head := some newHead,
                    size := if newNode then l.size + 1 else l.size })

/-- DoublyLinkedList::requeue_node(node) -/
def requeue_node (st : Store K V) (l : DoublyLinkedList) (nid : Nat) :
    Store K V × DoublyLinkedList :=
  let prevNode := (readNode st nid).prev
  let nextNode := (readNode st nid).next
  let st1 := match prevNode with
             | some p => setNext st p nextNode
             | none => st
  let st2 := setPrev st1 nid none
  let st3 := setNext st2 nid none
  let st4 := match nextNode with
             | some n => setPrev st3 n prevNode
             | none => st3
  let l1 := match l.tail with
            | some t =>
                if (readNode st4 t).key = (readNode st4 nid).key then
                  { l with tail := prevNode }
                else l
            | none => l
  insert_node st4 l1 nid false

/-- DoublyLinkedList::remove().  self.size -= 1 underflows (panics) when
size is already 0, modelled by returning none. -/
def remove (st : Store K V) (l : DoublyLinkedList) :
    Option (Store K V × DoublyLinkedList) :=
  match l.tail with
  | some oldTail =>
      let newTail := (readNode st oldTail).prev
      let st1 := match newTail with
                 | some t => setNext st t none
                 | none => st
      let st2 := setPrev st1 oldTail none
      if l.size = 0 then none
      else
        let l1 := { l with tail := newTail, size := l.size - 1 }
        some (st2, if l1.size = 0 then { l1 with head := none } else l1)
  | none => some (st, l)

end DoublyLinkedList

/-- HashMap::get -/
def mapGet : List (K × Nat) → K → Option Nat
  | [], _ => none
  | (k1, v1) :: rest, k => if k = k1 then some v1 else mapGet rest k

/-- HashMap::insert: replaces an existing binding and returns the old value,
or appends a fresh binding and returns none. -/
def mapInsert : List (K × Nat) → K → Nat → Option Nat × List (K × Nat)
  | [], k, v => (none, [(k, v)])
  | (k1, v1) :: rest, k, v =>
      if k = k1 then (some v1, (k, v) :: rest)
      else
        let r := mapInsert rest k v
        (r.1, (k1, v1) :: r.2)

/-- HashMap::remove (the removed value is not used by the program). -/
def mapRemove : List (K × Nat) → K → List (K × Nat)
  | [], _ => []
  | (k1, v1) :: rest, k => if k = k1 then rest else (k1, v1) :: mapRemove rest k

/-- LRU<K, V>: node store, recency list, index map, capacity and size. -/
structure LRU (K V : Type) where
  store : Store K V
  list : DoublyLinkedList
  map : List (K × Nat)
  limit : Nat
  size : Nat
  deriving DecidableEq, Repr

namespace LRU

/-- LRU::init(limit) -/
def init (limit : Nat) : LRU K V :=
  ⟨[], DoublyLinkedList.init, [], limit, 0⟩

/-- Second half of LRU::add, after the eviction branch: the map.insert whose
some-result triggers the early return, else insert_node and the size bump.
st1, l1, m1, sz1 are the store, list, map and size the eviction branch left
behind; nid is the NodeRef allocated at the top of add. -/
def addFinish (limit : Nat) (key : K) (nid : Nat) (st1 : Store K V)
    (l1 : DoublyLinkedList) (m1 : List (K × Nat)) (sz1 : Nat) : LRU K V :=
  let r := mapInsert m1 key nid
  match r.1 with
  | some _ => ⟨st1, l1, r.2, limit, sz1⟩
  | none =>
      let p := DoublyLinkedList.insert_node st1 l1 nid true
      ⟨p.1, p.2, r.2, limit, sz1 + 1⟩

/-- LRU::add(key, value).  A panic (usize underflow on a size decrement) is
modelled by returning none. -/
def add (s : LRU K V) (key : K) (value : V) : Option (LRU K V) :=
  let nid := s.store.length
  let st0 := s.store ++ [⟨key, value, none, none⟩]
  if s.size = s.limit then
    let m1 := match s.list.tail with
              | some t => mapRemove s.map (readNode st0 t).key
              | none => s.map
    match DoublyLinkedList.remove st0 s.list with
    | none => none
    | some (st1, l1) =>
        if s.size = 0 then none
        else some (addFinish s.limit key nid st1 l1 m1 (s.size - 1))
  else some (addFinish s.limit key nid st0 s.list s.map s.size)

/-- LRU::get(key).  Returns the looked-up value together with the cache state
after the side-effecting requeue. -/
def get (s : LRU K V) (key : K) : Option V × LRU K V :=
  match mapGet s.map key with
  | some nid =>
      let p := DoublyLinkedList.requeue_node s.store s.list nid
      (some (readNode p.1 nid).value, { s with store := p.1, list := p.2 })
  | none => (none, s)

end LRU

/-- A public operation of the cache. -/
inductive Op (K V : Type) where
  | add (key : K) (value : V)
  | get (key : K)

/-- Run one operation (the value returned by get is discarded). -/
def runOp (s : LRU K V) : Op K V → Option (LRU K V)
  | .add k v => s.add k v
  | .get k => some (s.get k).2

/-- Run a sequence of operations; none means some operation panicked. -/
def run (s : LRU K V) : List (Op K V) → Option (LRU K V)
  | [] => some s
  | op :: ops =>
      match runOp s op with
      | some s1 => run s1 ops
      | none => none

/-- Run a sequence of puts. -/
def runAdds (s : LRU K V) : List (K × V) → Option (LRU K V)
  | [] => some s
  | (k, v) :: ps =>
      match s.add k v with
      | some s1 => runAdds s1 ps
      | none => none

/-- Outputs of a sequence of gets, threading the cache state through. -/
def getsOut (s : LRU K V) : List K → List (Option V)
  | [] => []
  | k :: ks =>
      let r := s.get k
      r.1 :: getsOut r.2 ks

/-- Abstract view of a live entry: its key, value and node index. -/
structure Cell (K V : Type) where
  key : K
  value : V
  id : Nat
  deriving DecidableEq, Repr

/-- The store realises the given recency chain (most recent first): each cell's
node record holds its key and value, its next field points at the following
cell and its prev field at the preceding one (p for the first cell). -/
def ChainOk (st : Store K V) : Option Nat → List (Cell K V) → Prop
  | _, [] => True
  | p, c :: rest =>
      readNode st c.id = ⟨c.key, c.value, rest.head?.map Cell.id, p⟩ ∧
      ChainOk st (some c.id) rest

/-- Representation invariant tying a cache state to an abstract recency chain.
It holds along runs of puts with pairwise-distinct fresh keys and limit ≥ 2;
note that the tail pointer is none while the chain has at most one cell,
mirroring insert_node which never sets tail on a first insertion. -/
def ReprInv (limit : Nat) (s : LRU K V) (q : List (Cell K V)) : Prop :=
  s.limit = limit ∧
  s.size = q.length ∧
  s.list.size = q.length ∧
  q.length ≤ limit ∧
  s.map = q.reverse.map (fun c => (c.key, c.id)) ∧
  s.list.head = q.head?.map Cell.id ∧
  s.list.tail = (if q.length ≤ 1 then none else q.getLast?.map Cell.id) ∧
  ChainOk s.store none q ∧
  (∀ c ∈ q, c.id < s.store.length) ∧
  (q.map Cell.id).Nodup

/-- Abstract effect of one fresh-key put on the recency chain. -/
def pushCell (limit : Nat) (q : List (Cell K V)) (k : K) (v : V) (nid : Nat) :
    List (Cell K V) :=
  ⟨k, v, nid⟩ :: (if q.length = limit then q.dropLast else q)

/-- Abstract effect of a sequence of fresh-key puts; base is the next node
index to be allocated. -/
def pushAll (limit : Nat) : List (Cell K V) → Nat → List (K × V) → List (Cell K V)
  | q, _, [] => q
  | q, base, (k, v) :: ps => pushAll limit (pushCell limit q k v base) (base + 1) ps

/-! ## Store lemmas -/

theorem readNode_set_ne (st : Store K V) {i j : Nat} (h : i ≠ j) (n : Node K V) :
    readNode (st.set j n) i = readNode st i := by
  simp [readNode, List.getD_eq_getElem?_getD, List.getElem?_set_ne (Ne.symm h)]

theorem readNode_set_self (st : Store K V) {j : Nat} (h : j < st.length)
    (n : Node K V) : readNode (st.set j n) j = n := by
  simp [readNode, List.getD_eq_getElem?_getD, List.getElem?_set_eq_of_lt n h]

theorem length_setNext (st : Store K V) (j : Nat) (x : Option Nat) :
    (setNext st j x).length = st.length := List.length_set ..

theorem length_setPrev (st : Store K V) (j : Nat) (x : Option Nat) :
    (setPrev st j x).length = st.length := List.length_set ..

theorem readNode_setNext_ne (st : Store K V) {i j : Nat} (h : i ≠ j)
    (x : Option Nat) : readNode (setNext st j x) i = readNode st i :=
  readNode_set_ne st h _

theorem readNode_setPrev_ne (st : Store K V) {i j : Nat} (h : i ≠ j)
    (x : Option Nat) : readNode (setPrev st j x) i = readNode st i :=
  readNode_set_ne st h _

theorem readNode_setNext_self (st : Store K V) {j : Nat} (h : j < st.length)
    (x : Option Nat) :
    readNode (setNext st j x) j = { readNode st j with next := x } :=
  readNode_set_self st h _

theorem readNode_setPrev_self (st : Store K V) {j : Nat} (h : j < st.length)
    (x : Option Nat) :
    readNode (setPrev st j x) j = { readNode st j with prev := x } :=
  readNode_set_self st h _

theorem readNode_append_lt (st l2 : Store K V) {i : Nat} (h : i < st.length) :
    readNode (st ++ l2) i = readNode st i := by
  simp [readNode, List.getD_eq_getElem?_getD, List.getElem?_append_left h]

theorem readNode_append_self (st : Store K V) (n : Node K V) :
    readNode (st ++ [n]) st.length = n := by
  simp [readNode, List.getD_eq_getElem?_getD, List.getElem?_concat_length]

theorem value_setNext (st : Store K V) (j : Nat) (x : Option Nat) (i : Nat) :
    (readNode (setNext st j x) i).value = (readNode st i).value := by
  by_cases hij : i = j
  · subst hij
    by_cases hl : i < st.length
    · rw [readNode_setNext_self st hl]
    · unfold setNext
      rw [List.set_eq_of_length_le (Nat.le_of_not_lt hl)]
  · rw [readNode_setNext_ne st hij]

theorem value_setPrev (st : Store K V) (j : Nat) (x : Option Nat) (i : Nat) :
    (readNode (setPrev st j x) i).value = (readNode st i).value := by
  by_cases hij : i = j
  · subst hij
    by_cases hl : i < st.length
    · rw [readNode_setPrev_self st hl]
    · unfold setPrev
      rw [List.set_eq_of_length_le (Nat.le_of_not_lt hl)]
  · rw [readNode_setPrev_ne st hij]

theorem key_setNext (st : Store K V) (j : Nat) (x : Option Nat) (i : Nat) :
    (readNode (setNext st j x) i).key = (readNode st i).key := by
  by_cases hij : i = j
  · subst hij
    by_cases hl : i < st.length
    · rw [readNode_setNext_self st hl]
    · unfold setNext
      rw [List.set_eq_of_length_le (Nat.le_of_not_lt hl)]
  · rw [readNode_setNext_ne st hij]

theorem key_setPrev (st : Store K V) (j : Nat) (x : Option Nat) (i : Nat) :
    (readNode (setPrev st j x) i).key = (readNode st i).key := by
  by_cases hij : i = j
  · subst hij
    by_cases hl : i < st.length
    · rw [readNode_setPrev_self st hl]
    · unfold setPrev
      rw [List.set_eq_of_length_le (Nat.le_of_not_lt hl)]
  · rw [readNode_setPrev_ne st hij]

/-! ## Preservation of values through the list operations -/

theorem value_insert_node (st : Store K V) (l : DoublyLinkedList) (nid : Nat)
    (b : Bool) (i : Nat) :
    (readNode (DoublyLinkedList.insert_node st l nid b).1 i).value =
      (readNode st i).value := by
  unfold DoublyLinkedList.insert_node
  cases l.head with
  | some p => simp [value_setNext, value_setPrev]
  | none => rfl

theorem value_requeue_node (st : Store K V) (l : DoublyLinkedList) (nid : Nat)
    (i : Nat) :
    (readNode (DoublyLinkedList.requeue_node st l nid).1 i).value =
      (readNode st i).value := by
  unfold DoublyLinkedList.requeue_node
  cases hp : (readNode st nid).prev <;> cases hn : (readNode st nid).next <;>
    simp [hp, hn, value_insert_node, value_setNext, value_setPrev]

theorem value_remove (st : Store K V) (l : DoublyLinkedList)
    (p : Store K V × DoublyLinkedList) (h : DoublyLinkedList.remove st l = some p)
    (i : Nat) : (readNode p.1 i).value = (readNode st i).value := by
  unfold DoublyLinkedList.remove at h
  cases ht : l.tail with
  | none => rw [ht] at h; cases h; rfl
  | some oldTail =>
      rw [ht] at h
      by_cases hz : l.size = 0
      · simp [hz] at h
      · simp only [hz, if_false] at h
        cases hnt : (readNode st oldTail).prev <;> rw [hnt] at h <;>
          cases h <;> simp [value_setNext, value_setPrev]

theorem size_insert_node (st : Store K V) (l : DoublyLinkedList) (nid : Nat)
    (b : Bool) :
    (DoublyLinkedList.insert_node st l nid b).2.size =
      if b then l.size + 1 else l.size := by
  unfold DoublyLinkedList.insert_node
  cases l.head with
  | some p =>
      by_cases h1 : l.size = 1 <;> simp [h1]
  | none => simp

theorem size_requeue_node (st : Store K V) (l : DoublyLinkedList) (nid : Nat) :
    (DoublyLinkedList.requeue_node st l nid).2.size = l.size := by
  unfold DoublyLinkedList.requeue_node
  simp only [size_insert_node, Bool.false_eq_true, if_false]
  split
  · split <;> rfl
  · rfl

/-! ## Index (HashMap) lemmas -/

theorem mapInsert_fst (m : List (K × Nat)) (k : K) (v : Nat) :
    (mapInsert m k v).1 = mapGet m k := by
  induction m with
  | nil => rfl
  | cons hd tl ih =>
      obtain ⟨k1, v1⟩ := hd
      by_cases hk : k = k1 <;> simp [mapInsert, mapGet, hk, ih]

theorem mapGet_mapInsert (m : List (K × Nat)) (k : K) (v : Nat) (k2 : K) :
    mapGet (mapInsert m k v).2 k2 = if k2 = k then some v else mapGet m k2 := by
  induction m with
  | nil =>
      by_cases hk : k2 = k <;> simp [mapInsert, mapGet, hk]
  | cons hd tl ih =>
      obtain ⟨k1, v1⟩ := hd
      by_cases hk : k = k1
      · subst hk
        by_cases hk2 : k2 = k <;> simp [mapInsert, mapGet, hk2]
      · by_cases hk2 : k2 = k1
        · subst hk2
          have hne : ¬ k2 = k := fun h => hk (h ▸ rfl)
          simp [mapInsert, mapGet, hk, hne]
        · simp [mapInsert, mapGet, hk, hk2, ih]

theorem mapGet_eq_none_iff (m : List (K × Nat)) (k : K) :
    mapGet m k = none ↔ k ∉ m.map Prod.fst := by
  induction m with
  | nil => simp [mapGet]
  | cons hd tl ih =>
      obtain ⟨k1, v1⟩ := hd
      by_cases hk : k = k1 <;> simp [mapGet, hk, ih]

theorem mapInsert_not_mem (m : List (K × Nat)) (k : K) (v : Nat)
    (h : k ∉ m.map Prod.fst) : mapInsert m k v = (none, m ++ [(k, v)]) := by
  induction m with
  | nil => rfl
  | cons hd tl ih =>
      obtain ⟨k1, v1⟩ := hd
      simp only [List.map_cons, List.mem_cons] at h
      push_neg at h
      simp [mapInsert, h.1, ih h.2]

theorem mapGet_of_mem_of_nodup (m : List (K × Nat)) (k : K) (i : Nat)
    (hnd : (m.map Prod.fst).Nodup) (hm : (k, i) ∈ m) : mapGet m k = some i := by
  induction m with
  | nil => simp at hm
  | cons hd tl ih =>
      obtain ⟨k1, v1⟩ := hd
      simp only [List.map_cons, List.nodup_cons] at hnd
      rcases List.mem_cons.mp hm with h | h
      · cases h; simp [mapGet]
      · have hne : k ≠ k1 := by
          rintro rfl
          exact hnd.1 (List.mem_map.mpr ⟨(k, i), h, rfl⟩)
        simp [mapGet, hne, ih hnd.2 h]

/-! ## The observable result of get -/

theorem get_fst (s : LRU K V) (k : K) :
    (s.get k).1 = (mapGet s.map k).map (fun nid => (readNode s.store nid).value) := by
  unfold LRU.get
  cases h : mapGet s.map k with
  | none => simp
  | some nid => simp [value_requeue_node]

theorem addFinish_mapGet_self (limit : Nat) (k : K) (nid : Nat)
    (st1 : Store K V) (l1 : DoublyLinkedList) (m1 : List (K × Nat)) (sz1 : Nat) :
    mapGet (LRU.addFinish limit k nid st1 l1 m1 sz1).map k = some nid := by
  unfold LRU.addFinish
  dsimp only
  split <;> simp [mapGet_mapInsert]

theorem addFinish_value (limit : Nat) (k : K) (nid : Nat) (st1 : Store K V)
    (l1 : DoublyLinkedList) (m1 : List (K × Nat)) (sz1 : Nat) (i : Nat) :
    (readNode (LRU.addFinish limit k nid st1 l1 m1 sz1).store i).value =
      (readNode st1 i).value := by
  unfold LRU.addFinish
  dsimp only
  split
  · rfl
  · exact value_insert_node ..

theorem addFinish_limit (limit : Nat) (k : K) (nid : Nat) (st1 : Store K V)
    (l1 : DoublyLinkedList) (m1 : List (K × Nat)) (sz1 : Nat) :
    (LRU.addFinish limit k nid st1 l1 m1 sz1).limit = limit := by
  unfold LRU.addFinish
  dsimp only
  split <;> rfl

/-- Anatomy of a successful add: the key is mapped to the freshly allocated
node, whose stored value is the supplied one, and the capacity is unchanged. -/
theorem add_result (s : LRU K V) (k : K) (v : V) (s1 : LRU K V)
    (h : s.add k v = some s1) :
    mapGet s1.map k = some s.store.length ∧
    (readNode s1.store s.store.length).value = v ∧
    s1.limit = s.limit := by
  have hval0 : (readNode (s.store ++ [(⟨k, v, none, none⟩ : Node K V)])
      s.store.length).value = v := by
    rw [readNode_append_self]
  unfold LRU.add at h
  dsimp only at h
  split at h
  · split at h
    · exact absurd h (by simp)
    · rename_i st1 l1 hrem
      split at h
      · exact absurd h (by simp)
      · cases h
        refine ⟨addFinish_mapGet_self .., ?_, addFinish_limit ..⟩
        rw [addFinish_value, value_remove _ _ _ hrem]
        exact hval0
  · cases h
    refine ⟨addFinish_mapGet_self .., ?_, addFinish_limit ..⟩
    rw [addFinish_value]
    exact hval0

/-! ## Concrete counterexample and bug-witness theorems -/

/-- Claim C1 is false on the code: with limit 2, after put(0,10), put(1,11),
a re-put put(1,12) of the already-present key 1 leaves size = 1 (not the
unchanged 2) and removes key 0 from the Index, because add checks capacity
before membership and evicts the tail, then early-returns.  The claim demands
size and Index membership unchanged, i.e. result (2, some _). -/
theorem C1_counterexample :
    (runAdds (LRU.init 2 : LRU Nat Nat) [(0, 10), (1, 11), (1, 12)]).map
      (fun s => (s.size, mapGet s.map 0)) = some (1, none) := by decide

/-- Claim C2 is false on the code (and the code contradicts its own eviction
doc, which says the evicted item is removed from the HashMap): with limit 1,
the second, over-capacity put of a fresh key evicts nothing — key 0 stays in
the Index and still answers get — because insert_node never set tail for the
one-element list, so the eviction branch removes no entry while still
decrementing size. -/
theorem C2_eviction_skipped :
    (runAdds (LRU.init 1 : LRU Nat Nat) [(0, 5), (1, 6)]).map
      (fun s => (s.size, s.map.length, (s.get 0).1, (s.get 1).1)) =
      some (1, 2, some 5, some 6) := by decide

/-- Claim C3 is false on the code: with limit 1, after put(0,5), put(1,6) the
size counter is 1 but both the Index and the recency list hold two entries, so
size = |Index| = |RecencyList| fails (1 ≠ 2). -/
theorem C3_size_mismatch :
    (runAdds (LRU.init 1 : LRU Nat Nat) [(0, 5), (1, 6)]).map
      (fun s => (s.size, s.map.length, s.list.size)) = some (1, 2, 2) := by decide

/-- Claim C4 is false on the code: after a single put into a fresh cache the
list has size 1 and a head, but tail is none — insert_node never sets tail
when inserting into an empty list — contradicting the invariant that at
size 1 head and tail denote the same entry. -/
theorem C4_singleton_tail_none :
    (runAdds (LRU.init 4 : LRU Nat Nat) [(0, 7)]).map
      (fun s => (s.list.size, s.list.head, s.list.tail)) =
      some (1, some 0, none) := by decide

/-- Claim C5 is false on the code as stated: with limit 1, inserting the two
distinct keys 0 and 1 leaves size = limit = 1, but the earliest-inserted key 0
is not evicted — get(0) still returns its value — because eviction is a no-op
when the singleton list's tail pointer is none. -/
theorem C5_counterexample :
    (runAdds (LRU.init 1 : LRU Nat Nat) [(0, 1), (1, 2)]).map
      (fun s => (s.size, (s.get 0).1)) = some (1, some 1) := by decide

/-- Claim C6 is false on the code: with limit 4, after add 0, add 1, re-add 1
(leaving a stale node for key 1 in the list), add 2, add 3, a get of key 1
succeeds (some 102), promoting it; the following two puts of fresh keys 4 and
5 never touch key 1, yet they evict key 1 (its stale node reaches the tail and
the eviction removes key 1 from the Index) while keys 2 and 3 — both resident
when key 1 was promoted — are still resident. -/
theorem C6_counterexample :
    ((run (LRU.init 4 : LRU Nat Nat)
        [.add 0 100, .add 1 101, .add 1 102, .add 2 103, .add 3 104]).map
      (fun s => (s.get 1).1) = some (some 102)) ∧
    ((run (LRU.init 4 : LRU Nat Nat)
        [.add 0 100, .add 1 101, .add 1 102, .add 2 103, .add 3 104,
         .get 1, .add 4 105, .add 5 106]).map
      (fun s => getsOut s [1, 2, 3]) = some [none, some 103, some 104]) := by
  exact ⟨by decide, by decide⟩

/-- Claim C6 amended: the particular promotion scenario of the spec holds.
Starting from the state after Scenario A's five puts with limit 4, get("F")
returns some 100 and promotes F; the following put("N",20) evicts "A" (the
least recently used) and not "F": afterwards get("A") = none and
get("F") = some 100. -/
theorem C6_promotion_scenario :
    ((run (LRU.init 4 : LRU String Nat)
        [.add "G" 50, .add "F" 100, .add "A" 20, .add "Z" 20, .add "Q" 20]).map
      (fun s => (s.get "F").1) = some (some 100)) ∧
    ((run (LRU.init 4 : LRU String Nat)
        [.add "G" 50, .add "F" 100, .add "A" 20, .add "Z" 20, .add "Q" 20,
         .get "F", .add "N" 20]).map
      (fun s => getsOut s ["A", "F"]) = some [none, some 100]) := by
  exact ⟨by decide, by decide⟩

/-! ## Chain representation lemmas -/

theorem chainOk_agree (st st2 : Store K V) (q : List (Cell K V))
    (hag : ∀ c ∈ q, readNode st2 c.id = readNode st c.id) :
    ∀ p, ChainOk st p q → ChainOk st2 p q := by
  induction q with
  | nil => intro p _; trivial
  | cons c rest ih =>
      intro p h
      simp only [ChainOk] at h ⊢
      refine ⟨(hag c (by simp)).trans h.1, ?_⟩
      exact ih (fun d hd => hag d (by simp [hd])) _ h.2

theorem chainOk_read (st : Store K V) (q : List (Cell K V)) (c : Cell K V)
    (hc : c ∈ q) : ∀ p, ChainOk st p q →
    (readNode st c.id).key = c.key ∧ (readNode st c.id).value = c.value := by
  induction q with
  | nil => simp at hc
  | cons d rest ih =>
      intro p h
      simp only [ChainOk] at h
      rcases List.mem_cons.mp hc with rfl | hc2
      · rw [h.1]
        exact ⟨rfl, rfl⟩
      · exact ih hc2 _ h.2

theorem chainOk_last_prev (st : Store K V) (q : List (Cell K V)) (y z : Cell K V) :
    ∀ p, ChainOk st p (q ++ [y, z]) →
    readNode st z.id = ⟨z.key, z.value, none, some y.id⟩ := by
  induction q with
  | nil =>
      intro p h
      simp only [List.nil_append, ChainOk, List.head?, Option.map] at h
      exact h.2.1
  | cons c rest ih =>
      intro p h
      simp only [List.cons_append, ChainOk] at h
      exact ih _ h.2

theorem chainOk_first (st : Store K V) (c : Cell K V) (rest : List (Cell K V))
    (p : Option Nat) (h : ChainOk st p (c :: rest)) :
    readNode st c.id = ⟨c.key, c.value, rest.head?.map Cell.id, p⟩ ∧
    ChainOk st (some c.id) rest := by
  simpa only [ChainOk] using h

/-- Removing the last cell of a chain: if the new store agrees with the old
one on all cells before y and maps y to its old record with next cleared,
the shortened chain is realised. -/
theorem chainOk_drop_last (st st2 : Store K V) (qm : List (Cell K V))
    (y z : Cell K V)
    (hag : ∀ c ∈ qm, readNode st2 c.id = readNode st c.id)
    (hy : readNode st2 y.id = { readNode st y.id with next := none }) :
    ∀ p, ChainOk st p (qm ++ [y, z]) → ChainOk st2 p (qm ++ [y]) := by
  induction qm with
  | nil =>
      intro p h
      simp only [List.nil_append, ChainOk] at h ⊢
      refine ⟨?_, trivial⟩
      rw [hy, h.1]
      rfl
  | cons c rest ih =>
      intro p h
      simp only [List.cons_append, ChainOk] at h ⊢
      obtain ⟨h1, h2⟩ := h
      refine ⟨?_, ih (fun d hd => hag d (by simp [hd])) _ h2⟩
      rw [hag c (by simp), h1]
      cases rest <;> rfl

theorem exists_append_two (q : List (Cell K V)) (h : 2 ≤ q.length) :
    ∃ qm y z, q = qm ++ [y, z] := by
  rcases q.eq_nil_or_concat with rfl | ⟨q1, z, rfl⟩
  · simp at h
  · rcases q1.eq_nil_or_concat with rfl | ⟨qm, y, rfl⟩
    · simp at h
    · exact ⟨qm, y, z, by simp⟩

theorem length_insert_node_store (st : Store K V) (l : DoublyLinkedList)
    (nid : Nat) (b : Bool) :
    (DoublyLinkedList.insert_node st l nid b).1.length = st.length := by
  unfold DoublyLinkedList.insert_node
  cases l.head with
  | some p => simp [setNext, setPrev]
  | none => rfl

/-! ## Computation rules for the operations -/

theorem insert_node_head_none (st : Store K V) (l : DoublyLinkedList) (nid : Nat)
    (b : Bool) (h : l.head = none) :
    DoublyLinkedList.insert_node st l nid b =
      (st, { l with head := some nid,
                    size := if b then l.size + 1 else l.size }) := by
  unfold DoublyLinkedList.insert_node
  rw [h]

theorem insert_node_head_some (st : Store K V) (l : DoublyLinkedList)
    (nid c : Nat) (b : Bool) (h : l.head = some c) :
    DoublyLinkedList.insert_node st l nid b =
      (setNext (setPrev st c (some nid)) nid (some c),
       ⟨some nid, if l.size = 1 then some c else l.tail,
        if b then l.size + 1 else l.size⟩) := by
  unfold DoublyLinkedList.insert_node
  rw [h]
  by_cases h1 : l.size = 1 <;> simp [h1]

theorem remove_eq_some (st : Store K V) (l : DoublyLinkedList) (t u : Nat)
    (ht : l.tail = some t) (hprev : (readNode st t).prev = some u)
    (hsz : l.size ≠ 0) (hsz1 : l.size - 1 ≠ 0) :
    DoublyLinkedList.remove st l =
      some (setPrev (setNext st u none) t none, ⟨l.head, some u, l.size - 1⟩) := by
  unfold DoublyLinkedList.remove
  rw [ht]
  try dsimp only
  rw [hprev]
  try dsimp only
  rw [if_neg hsz]
  try dsimp only
  rw [if_neg hsz1]
  try rfl

theorem addFinish_not_mem (limit : Nat) (k : K) (nid : Nat) (st1 : Store K V)
    (l1 : DoublyLinkedList) (m1 : List (K × Nat)) (sz1 : Nat)
    (h : k ∉ m1.map Prod.fst) :
    LRU.addFinish limit k nid st1 l1 m1 sz1 =
      ⟨(DoublyLinkedList.insert_node st1 l1 nid true).1,
       (DoublyLinkedList.insert_node st1 l1 nid true).2,
       m1 ++ [(k, nid)], limit, sz1 + 1⟩ := by
  unfold LRU.addFinish
  try dsimp only
  rw [mapInsert_not_mem _ _ _ h]

theorem keys_of_pairs (q : List (Cell K V)) :
    (q.reverse.map fun c => (c.key, c.id)).map Prod.fst = q.reverse.map Cell.key := by
  simp [List.map_map]

/-! ## The fresh-key put step on the representation invariant -/

theorem step_nil (limit : Nat) (s : LRU K V) (k : K) (v : V)
    (hinv : ReprInv limit s []) (h2 : 2 ≤ limit) :
    ∃ s1, s.add k v = some s1 ∧ s1.store.length = s.store.length + 1 ∧
      ReprInv limit s1 [⟨k, v, s.store.length⟩] := by
  obtain ⟨hlim, hsz, hlsz, _, hmap, hhead, htail, _, _, _⟩ := hinv
  simp only [List.length_nil] at hsz hlsz
  simp only [List.reverse_nil, List.map_nil] at hmap
  simp only [List.head?_nil, Option.map_none'] at hhead
  simp only [List.length_nil, Nat.zero_le, if_pos] at htail
  have hcap : ¬ s.size = s.limit := by omega
  have hadd : s.add k v = some (LRU.addFinish s.limit k s.store.length
      (s.store ++ [⟨k, v, none, none⟩]) s.list s.map s.size) := by
    unfold LRU.add
    rw [if_neg hcap]
  rw [addFinish_not_mem _ _ _ _ _ _ _ (by rw [hmap]; simp),
      insert_node_head_none _ _ _ _ hhead] at hadd
  refine ⟨_, hadd, by simp, ?_⟩
  refine ⟨hlim, ?_, ?_, by simp; omega, ?_, ?_, ?_, ?_, ?_, ?_⟩
  · show s.size + 1 = 1
    omega
  · show s.list.size + 1 = 1
    omega
  · show s.map ++ [(k, s.store.length)] = _
    rw [hmap]
    rfl
  · rfl
  · show s.list.tail = _
    rw [htail]
    rfl
  · show ChainOk (s.store ++ [⟨k, v, none, none⟩]) none [⟨k, v, s.store.length⟩]
    simp only [ChainOk, List.head?_nil, Option.map_none', and_true]
    rw [readNode_append_self]
  · intro c hc
    simp only [List.mem_singleton] at hc
    subst hc
    simp
  · simp


theorem step_cons (limit : Nat) (s : LRU K V) (k : K) (v : V) (c : Cell K V)
    (tl : List (Cell K V)) (hinv : ReprInv limit s (c :: tl))
    (hlt : (c :: tl).length < limit) (hk : k ∉ (c :: tl).map Cell.key) :
    ∃ s1, s.add k v = some s1 ∧ s1.store.length = s.store.length + 1 ∧
      ReprInv limit s1 (⟨k, v, s.store.length⟩ :: c :: tl) := by
  obtain ⟨hlim, hsz, hlsz, hqlen, hmap, hhead, htail, hchain, hvalid, hnd⟩ := hinv
  simp only [List.length_cons] at hsz hlsz hlt
  have hcid : c.id < s.store.length := hvalid c (by simp)
  have hcidne : s.store.length ≠ c.id := by omega
  have hcap : ¬ s.size = s.limit := by omega
  have hhead2 : s.list.head = some c.id := by rw [hhead]; rfl
  have hkm : k ∉ s.map.map Prod.fst := by
    rw [hmap, keys_of_pairs, List.map_reverse]
    intro hmem
    exact hk (List.mem_reverse.mp hmem)
  have hadd : s.add k v = some (LRU.addFinish s.limit k s.store.length
      (s.store ++ [⟨k, v, none, none⟩]) s.list s.map s.size) := by
    unfold LRU.add
    rw [if_neg hcap]
  rw [addFinish_not_mem _ _ _ _ _ _ _ hkm,
      insert_node_head_some _ _ _ _ _ hhead2] at hadd
  have hlen : (setNext (setPrev (s.store ++ [(⟨k, v, none, none⟩ : Node K V)])
      c.id (some s.store.length)) s.store.length (some c.id)).length =
      s.store.length + 1 := by
    rw [length_setNext, length_setPrev]
    simp
  have hreadnew : readNode (setNext (setPrev
      (s.store ++ [(⟨k, v, none, none⟩ : Node K V)]) c.id (some s.store.length))
      s.store.length (some c.id)) s.store.length =
      ⟨k, v, some c.id, none⟩ := by
    rw [readNode_setNext_self _ (by rw [length_setPrev]; simp),
        readNode_setPrev_ne _ hcidne, readNode_append_self]
  have hcid1 : c.id < (s.store ++ [(⟨k, v, none, none⟩ : Node K V)]).length := by
    simp only [List.length_append, List.length_singleton]
    omega
  have hreadc : readNode (setNext (setPrev
      (s.store ++ [(⟨k, v, none, none⟩ : Node K V)]) c.id (some s.store.length))
      s.store.length (some c.id)) c.id =
      ⟨c.key, c.value, tl.head?.map Cell.id, some s.store.length⟩ := by
    rw [readNode_setNext_ne _ (Ne.symm hcidne),
        readNode_setPrev_self _ hcid1,
        readNode_append_lt _ _ hcid, (chainOk_first _ _ _ _ hchain).1]
  have hagree : ∀ d ∈ tl, readNode (setNext (setPrev
      (s.store ++ [(⟨k, v, none, none⟩ : Node K V)]) c.id (some s.store.length))
      s.store.length (some c.id)) d.id = readNode s.store d.id := by
    intro d hd
    have hdid : d.id < s.store.length := hvalid d (by simp [hd])
    have hdc : d.id ≠ c.id := by
      simp only [List.map_cons, List.nodup_cons] at hnd
      intro hdc
      exact hnd.1 (hdc ▸ List.mem_map.mpr ⟨d, hd, rfl⟩)
    rw [readNode_setNext_ne _ (by omega), readNode_setPrev_ne _ hdc,
        readNode_append_lt _ _ hdid]
  refine ⟨_, hadd, hlen, hlim, ?_, ?_, ?_, ?_, rfl, ?_, ?_, ?_, ?_⟩
  · show s.size + 1 = _
    simp only [List.length_cons]
    omega
  · show (if (true : Bool) then s.list.size + 1 else s.list.size) = _
    simp only [if_pos]
    simp only [List.length_cons]
    omega
  · simp only [List.length_cons]
    omega
  · show s.map ++ [(k, s.store.length)] = _
    rw [hmap]
    simp
  · show (if s.list.size = 1 then some c.id else s.list.tail) = _
    cases tl with
    | nil =>
        simp only [List.length_nil] at hlsz
        rw [if_pos (by omega)]
        rfl
    | cons d tl2 =>
        simp only [List.length_cons] at hlsz
        rw [if_neg (by omega), htail]
        simp only [List.length_cons]
        rw [if_neg (by omega), if_neg (by omega)]
        rfl
  · show ChainOk _ none (⟨k, v, s.store.length⟩ :: c :: tl)
    simp only [ChainOk]
    refine ⟨?_, ?_, ?_⟩
    · rw [hreadnew]
      rfl
    · rw [hreadc]
    · exact chainOk_agree _ _ _ hagree _ (chainOk_first _ _ _ _ hchain).2
  · intro d hd
    rw [hlen]
    rcases List.mem_cons.mp hd with rfl | hd2
    · simp
    · have := hvalid d hd2
      omega
  · simp only [List.map_cons, List.nodup_cons]
    constructor
    · intro hmem
      simp only [List.mem_cons, List.mem_map] at hmem
      rcases hmem with h1 | ⟨d, hd, hdid⟩
      · omega
      · have := hvalid d (by simp [hd])
        omega
    · simpa using hnd

theorem step_evict (limit : Nat) (s : LRU K V) (k : K) (v : V)
    (q : List (Cell K V)) (hinv : ReprInv limit s q) (h2 : 2 ≤ limit)
    (hql : q.length = limit) (hk : k ∉ q.map Cell.key) :
    ∃ s1, s.add k v = some s1 ∧ s1.store.length = s.store.length + 1 ∧
      ReprInv limit s1 (⟨k, v, s.store.length⟩ :: q.dropLast) := by
  obtain ⟨hlim, hsz, hlsz, hqlen, hmap, hhead, htail, hchain, hvalid, hnd⟩ := hinv
  obtain ⟨qm, y, z, rfl⟩ := exists_append_two q (by omega)
  have hlen2 : (qm ++ [y, z]).length = qm.length + 2 := by simp
  have hyid : y.id < s.store.length := hvalid y (by simp)
  have hzid : z.id < s.store.length := hvalid z (by simp)
  have hnd2 : (qm.map Cell.id ++ [y.id, z.id]).Nodup := by simpa using hnd
  rw [List.nodup_append] at hnd2
  have hyz : y.id ≠ z.id := by
    have := hnd2.2.1
    simp only [List.nodup_cons, List.mem_singleton] at this
    exact this.1
  have hqm_y : ∀ d ∈ qm, d.id ≠ y.id := fun d hd he =>
    hnd2.2.2 (List.mem_map.mpr ⟨d, hd, rfl⟩) (by simp [he])
  have hqm_z : ∀ d ∈ qm, d.id ≠ z.id := fun d hd he =>
    hnd2.2.2 (List.mem_map.mpr ⟨d, hd, rfl⟩) (by simp [he])
  have hconc : qm ++ [y, z] = (qm ++ [y]) ++ [z] := by simp
  have hgl : (qm ++ [y, z]).getLast? = some z := by
    rw [hconc]
    exact List.getLast?_concat _
  have htail2 : s.list.tail = some z.id := by
    rw [htail, if_neg (by omega), hgl]
    rfl
  have hz : readNode s.store z.id = ⟨z.key, z.value, none, some y.id⟩ :=
    chainOk_last_prev s.store qm y z none hchain
  have hz0 : readNode (s.store ++ [(⟨k, v, none, none⟩ : Node K V)]) z.id =
      ⟨z.key, z.value, none, some y.id⟩ := by
    rw [readNode_append_lt _ _ hzid, hz]
  have hcap : s.size = s.limit := by omega
  have hs0 : ¬ s.size = 0 := by omega
  have hremove : DoublyLinkedList.remove
      (s.store ++ [(⟨k, v, none, none⟩ : Node K V)]) s.list =
      some (setPrev (setNext (s.store ++ [(⟨k, v, none, none⟩ : Node K V)])
              y.id none) z.id none,
            ⟨s.list.head, some y.id, s.list.size - 1⟩) := by
    refine remove_eq_some _ _ z.id y.id htail2 ?_ (by omega) (by omega)
    rw [hz0]
  have hrev : (qm ++ [y, z]).reverse = z :: (qm ++ [y]).reverse := by
    rw [hconc, List.reverse_append]
    rfl
  have hm1 : mapRemove s.map (readNode
      (s.store ++ [(⟨k, v, none, none⟩ : Node K V)]) z.id).key =
      (qm ++ [y]).reverse.map (fun c => (c.key, c.id)) := by
    rw [hz0, hmap, hrev]
    simp [mapRemove]
  have hkm : k ∉ ((qm ++ [y]).reverse.map
      (fun c => (c.key, c.id))).map Prod.fst := by
    rw [keys_of_pairs, List.map_reverse]
    intro hmem
    apply hk
    have hmem2 := List.mem_reverse.mp hmem
    rw [List.map_append] at hmem2 ⊢
    rcases List.mem_append.mp hmem2 with h1 | h1
    · exact List.mem_append.mpr (Or.inl h1)
    · simp only [List.map_cons, List.map_nil, List.mem_singleton] at h1
      refine List.mem_append.mpr (Or.inr ?_)
      simp [h1]
  have hadd : s.add k v = some (LRU.addFinish s.limit k s.store.length
      (setPrev (setNext (s.store ++ [(⟨k, v, none, none⟩ : Node K V)])
          y.id none) z.id none)
      (⟨s.list.head, some y.id, s.list.size - 1⟩ : DoublyLinkedList)
      ((qm ++ [y]).reverse.map (fun c => (c.key, c.id))) (s.size - 1)) := by
    unfold LRU.add
    dsimp only
    rw [if_pos hcap, htail2]
    dsimp only
    rw [hremove]
    dsimp only
    rw [if_neg hs0, hm1]
  rw [addFinish_not_mem _ _ _ _ _ _ _ hkm] at hadd
  have hdrop : (qm ++ [y, z]).dropLast = qm ++ [y] := by
    rw [hconc]
    exact List.dropLast_concat
  rw [hdrop]
  have hst0len : (s.store ++ [(⟨k, v, none, none⟩ : Node K V)]).length =
      s.store.length + 1 := by simp
  have hylt0 : y.id < (s.store ++ [(⟨k, v, none, none⟩ : Node K V)]).length := by
    omega
  have hnidy : s.store.length ≠ y.id := by omega
  have hnidz : s.store.length ≠ z.id := by omega
  cases qm with
  | nil =>
      simp only [List.nil_append, List.length_cons, List.length_singleton,
        List.length_nil] at hsz hlsz hql
      simp only [List.nil_append]
      have hhead2 : s.list.head = some y.id := by
        rw [hhead]
        rfl
      have hL1head : (⟨s.list.head, some y.id, s.list.size - 1⟩ :
          DoublyLinkedList).head = some y.id := hhead2
      have hins : DoublyLinkedList.insert_node
          (setPrev (setNext (s.store ++ [(⟨k, v, none, none⟩ : Node K V)])
              y.id none) z.id none)
          (⟨s.list.head, some y.id, s.list.size - 1⟩ : DoublyLinkedList)
          s.store.length true =
          (setNext (setPrev (setPrev (setNext
              (s.store ++ [(⟨k, v, none, none⟩ : Node K V)]) y.id none)
              z.id none) y.id (some s.store.length))
              s.store.length (some y.id),
           ⟨some s.store.length, some y.id, (s.list.size - 1) + 1⟩) := by
        rw [insert_node_head_some _ _ _ y.id _ hL1head]
        simp
      rw [hins] at hadd
      have hlenst : (setNext (setPrev (setPrev (setNext
          (s.store ++ [(⟨k, v, none, none⟩ : Node K V)]) y.id none)
          z.id none) y.id (some s.store.length))
          s.store.length (some y.id)).length = s.store.length + 1 := by
        rw [length_setNext, length_setPrev, length_setPrev, length_setNext,
            hst0len]
      have hlen_a : s.store.length < (setPrev (setPrev (setNext
          (s.store ++ [(⟨k, v, none, none⟩ : Node K V)]) y.id none)
          z.id none) y.id (some s.store.length)).length := by
        rw [length_setPrev, length_setPrev, length_setNext, hst0len]
        omega
      have hlen_b : y.id < (setPrev (setNext
          (s.store ++ [(⟨k, v, none, none⟩ : Node K V)]) y.id none)
          z.id none).length := by
        rw [length_setPrev, length_setNext, hst0len]
        omega
      have hreadnew : readNode (setNext (setPrev (setPrev (setNext
          (s.store ++ [(⟨k, v, none, none⟩ : Node K V)]) y.id none)
          z.id none) y.id (some s.store.length))
          s.store.length (some y.id)) s.store.length =
          ⟨k, v, some y.id, none⟩ := by
        rw [readNode_setNext_self _ hlen_a,
            readNode_setPrev_ne _ hnidy, readNode_setPrev_ne _ hnidz,
            readNode_setNext_ne _ hnidy, readNode_append_self]
      have hready : readNode (setNext (setPrev (setPrev (setNext
          (s.store ++ [(⟨k, v, none, none⟩ : Node K V)]) y.id none)
          z.id none) y.id (some s.store.length))
          s.store.length (some y.id)) y.id =
          ⟨y.key, y.value, none, some s.store.length⟩ := by
        rw [readNode_setNext_ne _ (Ne.symm hnidy),
            readNode_setPrev_self _ hlen_b,
            readNode_setPrev_ne _ hyz,
            readNode_setNext_self _ hylt0,
            readNode_append_lt _ _ hyid,
            (chainOk_first _ _ _ _ hchain).1]
      refine ⟨_, hadd, hlenst, hlim, ?_, ?_,
        by simp only [List.length_cons, List.length_singleton]; omega,
        ?_, rfl, ?_, ?_, ?_, ?_⟩
      · show s.size - 1 + 1 = _
        simp only [List.length_cons, List.length_singleton]
        omega
      · show s.list.size - 1 + 1 = _
        simp only [List.length_cons, List.length_singleton]
        omega
      · show List.map _ ([y].reverse) ++ [(k, s.store.length)] = _
        simp
      · show some y.id = _
        rw [if_neg (by simp)]
        rfl
      · show ChainOk _ none (⟨k, v, s.store.length⟩ :: [y])
        simp only [ChainOk]
        refine ⟨?_, ?_, trivial⟩
        · rw [hreadnew]
          rfl
        · rw [hready]
          rfl
      · intro d hd
        rw [hlenst]
        rcases List.mem_cons.mp hd with rfl | hd2
        · simp
        · simp only [List.mem_singleton] at hd2
          subst hd2
          omega
      · simp only [List.map_cons, List.map_nil]
        refine List.nodup_cons.mpr ⟨?_, List.nodup_singleton _⟩
        simp only [List.mem_singleton]
        omega
  | cons c0 qm2 =>
      simp only [List.cons_append, List.length_cons, List.length_append,
        List.length_singleton, List.length_nil] at hsz hlsz hql
      have hc0id : c0.id < s.store.length := hvalid c0 (by simp)
      have hc0y : c0.id ≠ y.id := hqm_y c0 (by simp)
      have hc0z : c0.id ≠ z.id := hqm_z c0 (by simp)
      have hnidc0 : s.store.length ≠ c0.id := by omega
      obtain ⟨hc0rec, hchainrest⟩ :=
        chainOk_first s.store c0 (qm2 ++ [y, z]) none hchain
      have hhead2 : s.list.head = some c0.id := by
        rw [hhead]
        rfl
      have hL1head : (⟨s.list.head, some y.id, s.list.size - 1⟩ :
          DoublyLinkedList).head = some c0.id := hhead2
      have hne1 : ¬ (s.list.size - 1 = 1) := by omega
      have hins : DoublyLinkedList.insert_node
          (setPrev (setNext (s.store ++ [(⟨k, v, none, none⟩ : Node K V)])
              y.id none) z.id none)
          (⟨s.list.head, some y.id, s.list.size - 1⟩ : DoublyLinkedList)
          s.store.length true =
          (setNext (setPrev (setPrev (setNext
              (s.store ++ [(⟨k, v, none, none⟩ : Node K V)]) y.id none)
              z.id none) c0.id (some s.store.length))
              s.store.length (some c0.id),
           ⟨some s.store.length, some y.id, (s.list.size - 1) + 1⟩) := by
        rw [insert_node_head_some _ _ _ c0.id _ hL1head]
        simp [hne1]
      rw [hins] at hadd
      have hlenst : (setNext (setPrev (setPrev (setNext
          (s.store ++ [(⟨k, v, none, none⟩ : Node K V)]) y.id none)
          z.id none) c0.id (some s.store.length))
          s.store.length (some c0.id)).length = s.store.length + 1 := by
        rw [length_setNext, length_setPrev, length_setPrev, length_setNext,
            hst0len]
      have hlen_a : s.store.length < (setPrev (setPrev (setNext
          (s.store ++ [(⟨k, v, none, none⟩ : Node K V)]) y.id none)
          z.id none) c0.id (some s.store.length)).length := by
        rw [length_setPrev, length_setPrev, length_setNext, hst0len]
        omega
      have hlen_b : c0.id < (setPrev (setNext
          (s.store ++ [(⟨k, v, none, none⟩ : Node K V)]) y.id none)
          z.id none).length := by
        rw [length_setPrev, length_setNext, hst0len]
        omega
      have hreadnew : readNode (setNext (setPrev (setPrev (setNext
          (s.store ++ [(⟨k, v, none, none⟩ : Node K V)]) y.id none)
          z.id none) c0.id (some s.store.length))
          s.store.length (some c0.id)) s.store.length =
          ⟨k, v, some c0.id, none⟩ := by
        rw [readNode_setNext_self _ hlen_a,
            readNode_setPrev_ne _ hnidc0, readNode_setPrev_ne _ hnidz,
            readNode_setNext_ne _ hnidy, readNode_append_self]
      have hheadeq : (qm2 ++ [y]).head? = (qm2 ++ [y, z]).head? := by
        cases qm2 <;> rfl
      have hreadc0 : readNode (setNext (setPrev (setPrev (setNext
          (s.store ++ [(⟨k, v, none, none⟩ : Node K V)]) y.id none)
          z.id none) c0.id (some s.store.length))
          s.store.length (some c0.id)) c0.id =
          ⟨c0.key, c0.value, (qm2 ++ [y]).head?.map Cell.id,
           some s.store.length⟩ := by
        rw [readNode_setNext_ne _ (Ne.symm hnidc0),
            readNode_setPrev_self _ hlen_b,
            readNode_setPrev_ne _ hc0z,
            readNode_setNext_ne _ hc0y,
            readNode_append_lt _ _ hc0id, hc0rec, hheadeq]
      have hready : readNode (setNext (setPrev (setPrev (setNext
          (s.store ++ [(⟨k, v, none, none⟩ : Node K V)]) y.id none)
          z.id none) c0.id (some s.store.length))
          s.store.length (some c0.id)) y.id =
          { readNode s.store y.id with next := none } := by
        rw [readNode_setNext_ne _ (Ne.symm hnidy),
            readNode_setPrev_ne _ (Ne.symm hc0y),
            readNode_setPrev_ne _ hyz,
            readNode_setNext_self _ hylt0,
            readNode_append_lt _ _ hyid]
      have hagree : ∀ d ∈ qm2, readNode (setNext (setPrev (setPrev (setNext
          (s.store ++ [(⟨k, v, none, none⟩ : Node K V)]) y.id none)
          z.id none) c0.id (some s.store.length))
          s.store.length (some c0.id)) d.id = readNode s.store d.id := by
        intro d hd
        have hdid : d.id < s.store.length := hvalid d (by simp [hd])
        have hdy : d.id ≠ y.id := hqm_y d (by simp [hd])
        have hdz : d.id ≠ z.id := hqm_z d (by simp [hd])
        have hdc0 : d.id ≠ c0.id := by
          have hnd3 := hnd
          simp only [List.cons_append, List.map_cons, List.nodup_cons] at hnd3
          intro he
          exact hnd3.1 (he ▸ List.mem_map.mpr ⟨d, by simp [hd], rfl⟩)
        rw [readNode_setNext_ne _ (by omega), readNode_setPrev_ne _ hdc0,
            readNode_setPrev_ne _ hdz, readNode_setNext_ne _ hdy,
            readNode_append_lt _ _ hdid]
      have hglq2 : (⟨k, v, s.store.length⟩ :: (c0 :: (qm2 ++ [y])) :
          List (Cell K V)).getLast? = some y := by
        rw [show (⟨k, v, s.store.length⟩ :: (c0 :: (qm2 ++ [y])) :
            List (Cell K V)) = (⟨k, v, s.store.length⟩ :: c0 :: qm2) ++ [y]
          by simp]
        exact List.getLast?_concat _
      refine ⟨_, hadd, hlenst, hlim, ?_, ?_,
        by simp only [List.cons_append, List.length_cons, List.length_append,
          List.length_singleton, List.length_nil]; omega,
        ?_, rfl, ?_, ?_, ?_, ?_⟩
      · show s.size - 1 + 1 = _
        simp only [List.cons_append, List.length_cons, List.length_append,
          List.length_singleton, List.length_nil]
        omega
      · show s.list.size - 1 + 1 = _
        simp only [List.cons_append, List.length_cons, List.length_append,
          List.length_singleton, List.length_nil]
        omega
      · show List.map _ (((c0 :: qm2) ++ [y]).reverse) ++
            [(k, s.store.length)] = _
        simp
      · show some y.id = if (⟨k, v, s.store.length⟩ :: ((c0 :: qm2) ++ [y]) :
            List (Cell K V)).length ≤ 1 then none
            else Option.map Cell.id ((⟨k, v, s.store.length⟩ ::
              ((c0 :: qm2) ++ [y]) : List (Cell K V)).getLast?)
        rw [if_neg]
        · simp only [List.cons_append] at hglq2 ⊢
          rw [hglq2]
          rfl
        · simp only [List.length_cons, List.length_append,
            List.length_singleton]
          omega
      · show ChainOk _ none (⟨k, v, s.store.length⟩ :: ((c0 :: qm2) ++ [y]))
        simp only [List.cons_append, ChainOk]
        refine ⟨?_, ?_, ?_⟩
        · rw [hreadnew]
          rfl
        · rw [hreadc0]
          rfl
        · exact chainOk_drop_last s.store _ qm2 y z hagree hready
            (some c0.id) hchainrest
      · intro d hd
        rw [hlenst]
        simp only [List.cons_append, List.mem_cons, List.mem_append,
          List.not_mem_nil, or_false] at hd
        rcases hd with rfl | rfl | hd2 | rfl
        · simp
        · omega
        · have := hvalid d (by simp [hd2])
          omega
        · omega
      · simp only [List.cons_append, List.map_cons, List.map_append,
          List.map_nil, List.nodup_cons]
        refine ⟨?_, ?_⟩
        · intro hmem
          simp only [List.mem_cons, List.mem_append, List.mem_map,
            List.not_mem_nil, or_false] at hmem
          rcases hmem with h1 | ⟨d, hd, hdid⟩ | h1
          · omega
          · have := hvalid d (by simp [hd])
            omega
          · omega
        · have hsub : ((c0 :: (qm2 ++ [y])) : List (Cell K V)).Sublist
              (c0 :: (qm2 ++ [y, z])) := by
            refine List.Sublist.cons₂ c0 ?_
            refine List.Sublist.append_left ?_ qm2
            exact List.Sublist.cons₂ y (List.nil_sublist [z])
          have := List.Nodup.sublist (hsub.map Cell.id) (by simpa using hnd)
          simpa using this

theorem add_fresh (limit : Nat) (s : LRU K V) (q : List (Cell K V)) (k : K)
    (v : V) (hinv : ReprInv limit s q) (h2 : 2 ≤ limit)
    (hk : k ∉ q.map Cell.key) :
    ∃ s1, s.add k v = some s1 ∧ s1.store.length = s.store.length + 1 ∧
      ReprInv limit s1 (pushCell limit q k v s.store.length) := by
  unfold pushCell
  by_cases hq : q.length = limit
  · rw [if_pos hq]
    exact step_evict limit s k v q hinv h2 hq hk
  · rw [if_neg hq]
    cases q with
    | nil => exact step_nil limit s k v hinv h2
    | cons c tl =>
        have hlt : (c :: tl).length < limit := by
          have := hinv.2.2.2.1
          omega
        exact step_cons limit s k v c tl hinv hlt hk

theorem runAdds_inv (limit : Nat) (ps : List (K × V)) :
    ∀ (s : LRU K V) (q : List (Cell K V)), ReprInv limit s q → 2 ≤ limit →
    (∀ kv ∈ ps, kv.1 ∉ q.map Cell.key) → (ps.map Prod.fst).Nodup →
    ∃ s1, runAdds s ps = some s1 ∧
      ReprInv limit s1 (pushAll limit q s.store.length ps) := by
  induction ps with
  | nil =>
      intro s q hinv _ _ _
      exact ⟨s, rfl, hinv⟩
  | cons kv ps ih =>
      intro s q hinv h2 hfresh hnd
      obtain ⟨k, v⟩ := kv
      obtain ⟨s1, hadd, hlen, hinv1⟩ := add_fresh limit s q k v hinv h2
        (hfresh (k, v) (by simp))
      have hfresh1 : ∀ kv2 ∈ ps,
          kv2.1 ∉ (pushCell limit q k v s.store.length).map Cell.key := by
        intro kv2 hkv2 hmem
        unfold pushCell at hmem
        simp only [List.map_cons] at hmem
        rcases List.mem_cons.mp hmem with h1 | h1
        · simp only [List.map_cons, List.nodup_cons] at hnd
          exact hnd.1 (h1 ▸ List.mem_map.mpr ⟨kv2, hkv2, rfl⟩)
        · refine hfresh kv2 (by simp [hkv2]) ?_
          by_cases hql : q.length = limit
          · rw [if_pos hql] at h1
            exact List.Sublist.mem h1 (List.Sublist.map _ (List.dropLast_sublist q))
          · rw [if_neg hql] at h1
            exact h1
      have hnd1 : (ps.map Prod.fst).Nodup := by
        simp only [List.map_cons, List.nodup_cons] at hnd
        exact hnd.2
      obtain ⟨s2, hrun, hinv2⟩ := ih s1 _ hinv1 h2 hfresh1 hnd1
      refine ⟨s2, ?_, ?_⟩
      · unfold runAdds
        rw [hadd]
        exact hrun
      · rw [hlen] at hinv2
        exact hinv2

theorem take_cons_dropLast (a : K × V) (M : List (K × V)) (t : Nat)
    (ht : t ≤ M.length) : (a :: M.dropLast).take t = (a :: M).take t := by
  cases t with
  | zero => rfl
  | succ t2 =>
      simp only [List.take_succ_cons]
      congr 1
      rw [List.dropLast_eq_take, List.take_take]
      congr 1
      omega

theorem take_append_cons_dropLast (A : List (K × V)) (a : K × V)
    (M : List (K × V)) (limit : Nat) (hM : M.length = limit) :
    (A ++ a :: M.dropLast).take limit = (A ++ a :: M).take limit := by
  rw [List.take_append_eq_append_take, List.take_append_eq_append_take]
  congr 1
  exact take_cons_dropLast _ _ _ (by omega)

theorem pushAll_pairs (limit : Nat) (ps : List (K × V)) :
    ∀ (q : List (Cell K V)) (base : Nat), q.length ≤ limit → 1 ≤ limit →
    (pushAll limit q base ps).map (fun c => (c.key, c.value)) =
      (ps.reverse ++ q.map (fun c => (c.key, c.value))).take limit := by
  induction ps with
  | nil =>
      intro q base hq h1
      simp only [pushAll, List.reverse_nil, List.nil_append]
      rw [List.take_of_length_le (by simpa using hq)]
  | cons kv ps ih =>
      intro q base hq h1
      obtain ⟨k, v⟩ := kv
      have hpc : (pushCell limit q k v base).length ≤ limit := by
        unfold pushCell
        by_cases hql : q.length = limit
        · rw [if_pos hql]
          simp only [List.length_cons, List.length_dropLast]
          omega
        · rw [if_neg hql]
          simp only [List.length_cons]
          omega
      show (pushAll limit (pushCell limit q k v base) (base + 1) ps).map _ = _
      rw [ih _ _ hpc h1]
      unfold pushCell
      by_cases hql : q.length = limit
      · rw [if_pos hql]
        simp only [List.map_cons, List.map_dropLast, List.reverse_cons,
          List.append_assoc, List.singleton_append]
        exact take_append_cons_dropLast ps.reverse (k, v)
          (q.map (fun c => (c.key, c.value))) limit (by simp [hql])
      · rw [if_neg hql]
        simp only [List.map_cons, List.reverse_cons, List.append_assoc,
          List.singleton_append]

theorem get_snd_inv (s : LRU K V) (k : K) :
    (s.get k).2.limit = s.limit ∧ (s.get k).2.size = s.size ∧
    (s.get k).2.list.size = s.list.size := by
  unfold LRU.get
  cases h : mapGet s.map k with
  | none => exact ⟨rfl, rfl, rfl⟩
  | some nid => exact ⟨rfl, rfl, size_requeue_node ..⟩

theorem addFinish_size_le (limit : Nat) (k : K) (nid : Nat) (st1 : Store K V)
    (l1 : DoublyLinkedList) (m1 : List (K × Nat)) (sz1 : Nat)
    (h : sz1 ≤ l1.size) :
    (LRU.addFinish limit k nid st1 l1 m1 sz1).size ≤
      (LRU.addFinish limit k nid st1 l1 m1 sz1).list.size := by
  unfold LRU.addFinish
  dsimp only
  split
  · exact h
  · show sz1 + 1 ≤ (DoublyLinkedList.insert_node st1 l1 nid true).2.size
    rw [size_insert_node]
    simpa using h

theorem remove_some_size (st : Store K V) (l : DoublyLinkedList) (t : Nat)
    (ht : l.tail = some t) (hsz : l.size ≠ 0) :
    ∃ p, DoublyLinkedList.remove st l = some p ∧ p.2.size = l.size - 1 := by
  unfold DoublyLinkedList.remove
  rw [ht]
  dsimp only
  rw [if_neg hsz]
  exact ⟨_, rfl, by dsimp only; split <;> rfl⟩

theorem add_inv (s : LRU K V) (k : K) (v : V) (h1 : 1 ≤ s.limit)
    (h2 : s.size ≤ s.list.size) :
    ∃ s1, s.add k v = some s1 ∧ s1.limit = s.limit ∧ s1.size ≤ s1.list.size := by
  unfold LRU.add
  dsimp only
  by_cases hcap : s.size = s.limit
  · rw [if_pos hcap]
    have hs0 : ¬ s.size = 0 := by omega
    cases ht : s.list.tail with
    | none =>
        have hrem : DoublyLinkedList.remove
            (s.store ++ [(⟨k, v, none, none⟩ : Node K V)]) s.list =
            some (s.store ++ [(⟨k, v, none, none⟩ : Node K V)], s.list) := by
          unfold DoublyLinkedList.remove
          rw [ht]
        rw [hrem]
        dsimp only
        rw [if_neg hs0]
        exact ⟨_, rfl, addFinish_limit .., addFinish_size_le _ _ _ _ _ _ _ (by omega)⟩
    | some t =>
        have hlsz : s.list.size ≠ 0 := by omega
        obtain ⟨p, hrem, hpsz⟩ := remove_some_size
          (s.store ++ [(⟨k, v, none, none⟩ : Node K V)]) s.list t ht hlsz
        obtain ⟨st2, l2⟩ := p
        rw [hrem]
        dsimp only
        rw [if_neg hs0]
        refine ⟨_, rfl, addFinish_limit .., addFinish_size_le _ _ _ _ _ _ _ ?_⟩
        simp only at hpsz
        omega
  · rw [if_neg hcap]
    exact ⟨_, rfl, addFinish_limit .., addFinish_size_le _ _ _ _ _ _ _ h2⟩

theorem runOp_inv (s : LRU K V) (op : Op K V) (h1 : 1 ≤ s.limit)
    (h2 : s.size ≤ s.list.size) :
    ∃ s1, runOp s op = some s1 ∧ s1.limit = s.limit ∧ s1.size ≤ s1.list.size := by
  cases op with
  | add k v => exact add_inv s k v h1 h2
  | get k =>
      obtain ⟨ha, hb, hc⟩ := get_snd_inv s k
      exact ⟨(s.get k).2, rfl, ha, by rw [hb, hc]; exact h2⟩

theorem run_isSome (ops : List (Op K V)) : ∀ s : LRU K V, 1 ≤ s.limit →
    s.size ≤ s.list.size → (run s ops).isSome = true := by
  induction ops with
  | nil => intro s _ _; rfl
  | cons op ops ih =>
      intro s h1 h2
      obtain ⟨s1, hop, hlim, hsz⟩ := runOp_inv s op h1 h2
      unfold run
      rw [hop]
      exact ih s1 (by omega) hsz

/-- Claim C8: for every cache constructed with a positive limit and every
sequence of get/put operations, no operation panics: in the embedding, run
never returns none — in particular the size decrements never underflow.  The
key invariant is that the cache's size counter never exceeds the list's size
counter, so the eviction branch (entered only when size = limit ≥ 1) always
has a nonzero list size to decrement. -/
theorem C8_no_panic (limit : Nat) (ops : List (Op K V)) (h : 1 ≤ limit) :
    (run (LRU.init limit : LRU K V) ops).isSome = true :=
  run_isSome ops (LRU.init limit) h (Nat.le_refl 0)

/-- Witness for C8 at a concrete input: limit 1 and an add/get/add sequence
that exercises the eviction branch. -/
theorem C8_no_panic_witness :
    (run (LRU.init 1 : LRU Nat Nat) [.add 0 5, .get 0, .add 1 6]).isSome = true :=
  C8_no_panic 1 [.add 0 5, .get 0, .add 1 6] (by decide)

/-- Claim C7: for every cache state (in particular every reachable one), every
key and every value v, if put(key, v) completes with state s1, then get(key)
on s1 returns Some v — whether or not the key was previously present and
whether or not an eviction occurred during the put. -/
theorem C7_get_after_put (s : LRU K V) (k : K) (v : V) (s1 : LRU K V)
    (h : s.add k v = some s1) : (s1.get k).1 = some v := by
  obtain ⟨hm, hv, -⟩ := add_result s k v s1 h
  rw [get_fst, hm, Option.map_some', hv]

/-- Witness for C7 at a concrete input: limit 2, put(0,42) then get(0). -/
theorem C7_get_after_put_witness :
    (LRU.add (LRU.init 2 : LRU Nat Nat) 0 42).map (fun s1 => (s1.get 0).1) =
      some (some 42) := by
  cases hadd : LRU.add (LRU.init 2 : LRU Nat Nat) 0 42 with
  | none => exact absurd hadd (by decide)
  | some s1 =>
      rw [Option.map_some']
      exact congrArg some (C7_get_after_put _ 0 42 s1 hadd)

/-- Claim C10: for every cache state and key, get(k) returns Some exactly when
k is in the Index map — the returned value being the value field of the node
the map associates with k — and on a miss the whole cache state is unchanged. -/
theorem C10_get_semantics (s : LRU K V) (k : K) :
    (s.get k).1 = (mapGet s.map k).map (fun nid => (readNode s.store nid).value) ∧
    (mapGet s.map k = none → s.get k = (none, s)) := by
  refine ⟨get_fst s k, fun h => ?_⟩
  unfold LRU.get
  rw [h]

/-- Witness for C10 at a concrete input: a miss on the empty cache returns
none and leaves the state unchanged. -/
theorem C10_get_semantics_witness :
    LRU.get (LRU.init 3 : LRU Nat Nat) 7 = (none, LRU.init 3) :=
  (C10_get_semantics (LRU.init 3) 7).2 rfl

/-- Claim C1 amended: when the key is already present and size is below the
limit, put(key, value) re-points the Index entry for key at a fresh node
holding the new value (so an immediate get returns the new value) and leaves
the recency list, the size and the Index membership unchanged; the entry is
not requeued (the list is not modified at all).  At capacity (size = limit)
the original claim fails: the put first evicts the tail and decrements size,
see the counterexample. -/
theorem C1_put_existing_key (s : LRU K V) (k : K) (v : V)
    (hmem : (mapGet s.map k).isSome = true) (hcap : s.size ≠ s.limit) :
    s.add k v = some (LRU.addFinish s.limit k s.store.length
        (s.store ++ [⟨k, v, none, none⟩]) s.list s.map s.size) ∧
    ∀ s1, s.add k v = some s1 →
      s1.list = s.list ∧ s1.size = s.size ∧
      (∀ k2, (mapGet s1.map k2).isSome = (mapGet s.map k2).isSome) ∧
      (s1.get k).1 = some v := by
  obtain ⟨old, hold⟩ := Option.isSome_iff_exists.mp hmem
  have hadd : s.add k v = some (LRU.addFinish s.limit k s.store.length
      (s.store ++ [⟨k, v, none, none⟩]) s.list s.map s.size) := by
    unfold LRU.add
    rw [if_neg hcap]
  have hfin : LRU.addFinish s.limit k s.store.length
      (s.store ++ [⟨k, v, none, none⟩]) s.list s.map s.size =
      ⟨s.store ++ [⟨k, v, none, none⟩], s.list,
        (mapInsert s.map k s.store.length).2, s.limit, s.size⟩ := by
    unfold LRU.addFinish
    dsimp only
    rw [mapInsert_fst, hold]
  refine ⟨hadd, fun s1 hs1 => ?_⟩
  rw [hadd, hfin] at hs1
  cases hs1
  refine ⟨rfl, rfl, fun k2 => ?_, ?_⟩
  · show (mapGet (mapInsert s.map k s.store.length).2 k2).isSome = _
    rw [mapGet_mapInsert]
    by_cases hk2 : k2 = k
    · rw [if_pos hk2, hk2, hold]
      rfl
    · rw [if_neg hk2]
  · rw [get_fst]
    show (mapGet (mapInsert s.map k s.store.length).2 k).map _ = some v
    rw [mapGet_mapInsert, if_pos rfl, Option.map_some']
    show some (readNode (s.store ++ [⟨k, v, none, none⟩]) s.store.length).value = _
    rw [readNode_append_self]

/-- Witness for C1's amended theorem at a concrete input: the cache holding
keys 0 and 1 with limit 3 (the state reached by put(0,10), put(1,11)), re-put
put(0,12): get(0) afterwards returns 12. -/
theorem C1_put_existing_key_witness :
    (LRU.add (⟨[⟨0, 10, none, some 1⟩, ⟨1, 11, some 0, none⟩],
        ⟨some 1, some 0, 2⟩, [(0, 0), (1, 1)], 3, 2⟩ : LRU Nat Nat) 0 12).map
      (fun s1 => (s1.get 0).1) = some (some 12) := by
  obtain ⟨hadd, hall⟩ := C1_put_existing_key
    (⟨[⟨0, 10, none, some 1⟩, ⟨1, 11, some 0, none⟩],
      ⟨some 1, some 0, 2⟩, [(0, 0), (1, 1)], 3, 2⟩ : LRU Nat Nat) 0 12
    (by decide) (by decide)
  rw [hadd, Option.map_some']
  exact congrArg some (hall _ hadd).2.2.2

/-- Claim C9 amended: construction with limit = 0 is accepted, and every put
on a cache whose limit and size are 0 panics on the usize underflow of the
size decrement (add returns none): the code follows neither of the two
permitted limit-0 policies. -/
theorem C9_zero_limit_add_panics (s : LRU K V) (k : K) (v : V)
    (h0 : s.limit = 0) (hs : s.size = 0) : s.add k v = none := by
  unfold LRU.add
  rw [hs, h0]
  dsimp only
  rw [if_pos rfl]
  cases hrem : DoublyLinkedList.remove (s.store ++ [⟨k, v, none, none⟩]) s.list with
  | none => simp [hrem]
  | some p => simp [hrem]

/-- Witness for C9's amended theorem at the concrete input limit = 0. -/
theorem C9_zero_limit_add_panics_witness :
    LRU.add (LRU.init 0 : LRU Nat Nat) 5 6 = none :=
  C9_zero_limit_add_panics (LRU.init 0) 5 6 rfl rfl

/-- Claim C9 is false on the code: construction with limit = 0 is accepted
(init is total and yields a cache with limit 0), yet the first put does not
evict-and-stay-at-size-0 — it panics on the usize underflow of the size
decrement (modelled by add returning none).  So neither permitted policy is
followed. -/
theorem C9_counterexample :
    (LRU.init 0 : LRU Nat Nat).limit = 0 ∧
    (LRU.init 0 : LRU Nat Nat).size = 0 ∧
    LRU.add (LRU.init 0 : LRU Nat Nat) 0 1 = none := by
  exact ⟨rfl, rfl, by decide⟩


/-- Claim C5 amended: restricted to limit ≥ 2 (the counterexample shows the
claim fails for limit = 1, where eviction is a no-op on the singleton list).
For every cache with limit ≥ 2 and every sequence of puts with
pairwise-distinct keys, inserting more than limit keys leaves size = limit,
the earliest-inserted keys beyond the recency window answer get with none
(they are exactly the evicted ones), and each of the last limit keys answers
get with its inserted value.  Additionally Scenario A as spec'd (limit 4,
puts G F A Z Q then gets) holds verbatim. -/
theorem C5_distinct_puts (limit : Nat) (ps : List (K × V)) (h2 : 2 ≤ limit)
    (hnd : (ps.map Prod.fst).Nodup) (hlen : limit < ps.length) :
    (∃ s, runAdds (LRU.init limit : LRU K V) ps = some s ∧ s.size = limit ∧
      (∀ kv ∈ ps.take (ps.length - limit), (s.get kv.1).1 = none) ∧
      (∀ kv ∈ ps.drop (ps.length - limit), (s.get kv.1).1 = some kv.2)) ∧
    (runAdds (LRU.init 4 : LRU String Nat)
        [("G", 50), ("F", 100), ("A", 20), ("Z", 20), ("Q", 20)]).map
      (fun sA => (sA.size, getsOut sA ["G", "F", "A", "Z", "Q"])) =
      some (4, [none, some 100, some 20, some 20, some 20]) := by
  refine ⟨?_, by decide⟩
  have hinv0 : ReprInv limit (LRU.init limit : LRU K V) [] :=
    ⟨rfl, rfl, rfl, by simp, rfl, rfl, rfl, trivial, by simp, by simp⟩
  obtain ⟨s, hrun, hinv⟩ := runAdds_inv limit ps (LRU.init limit) [] hinv0 h2
    (by simp) hnd
  obtain ⟨_, hsz, _, _, hmapc, _, _, hchain, _, _⟩ := hinv
  have hp : (pushAll limit ([] : List (Cell K V))
      (LRU.init limit : LRU K V).store.length ps).map
      (fun c => (c.key, c.value)) = ps.reverse.take limit := by
    have := pushAll_pairs limit ps [] (LRU.init limit : LRU K V).store.length
      (by simp) (by omega)
    simpa using this
  have hql : (pushAll limit ([] : List (Cell K V))
      (LRU.init limit : LRU K V).store.length ps).length = limit := by
    have hl := congrArg List.length hp
    simp only [List.length_map, List.length_take, List.length_reverse] at hl
    rw [hl]
    exact min_eq_left (Nat.le_of_lt hlen)
  have hkeys : (pushAll limit ([] : List (Cell K V))
      (LRU.init limit : LRU K V).store.length ps).map Cell.key =
      (ps.map Prod.fst).reverse.take limit := by
    have hfst := congrArg (List.map Prod.fst) hp
    rw [List.map_map, List.map_take, List.map_reverse] at hfst
    exact hfst
  have hmnd : (s.map.map Prod.fst).Nodup := by
    rw [hmapc, keys_of_pairs, List.map_reverse]
    rw [List.nodup_reverse, hkeys]
    exact List.Nodup.sublist (List.take_sublist _ _)
      (List.nodup_reverse.mpr hnd)
  refine ⟨s, hrun, ?_, ?_, ?_⟩
  · rw [hsz, hql]
  · intro kv hkv
    rw [get_fst]
    suffices h : mapGet s.map kv.1 = none by rw [h]; rfl
    rw [mapGet_eq_none_iff, hmapc, keys_of_pairs, List.map_reverse]
    intro hmem
    have hmem2 : kv.1 ∈ (ps.map Prod.fst).drop (ps.length - limit) := by
      rw [List.mem_reverse, hkeys, List.take_reverse, List.mem_reverse,
        List.length_map] at hmem
      exact hmem
    have hm : kv.1 ∈ (ps.map Prod.fst).take (ps.length - limit) := by
      rw [← List.map_take]
      exact List.mem_map.mpr ⟨kv, hkv, rfl⟩
    have hdisj : List.Disjoint
        ((ps.map Prod.fst).take (ps.length - limit))
        ((ps.map Prod.fst).drop (ps.length - limit)) := by
      have hnd2 := hnd
      rw [← List.take_append_drop (ps.length - limit) (ps.map Prod.fst),
        List.nodup_append] at hnd2
      exact hnd2.2.2
    exact hdisj hm hmem2
  · intro kv hkv
    have hkvmem : (kv.1, kv.2) ∈ (pushAll limit ([] : List (Cell K V))
        (LRU.init limit : LRU K V).store.length ps).map
        (fun c => (c.key, c.value)) := by
      rw [hp, List.take_reverse, List.mem_reverse]
      simpa using hkv
    obtain ⟨c, hc, hpair⟩ := List.mem_map.mp hkvmem
    have hck : c.key = kv.1 := congrArg Prod.fst hpair
    have hcv : c.value = kv.2 := congrArg Prod.snd hpair
    have hget : mapGet s.map kv.1 = some c.id := by
      refine mapGet_of_mem_of_nodup _ _ _ hmnd ?_
      rw [hmapc]
      refine List.mem_map.mpr ⟨c, List.mem_reverse.mpr hc, ?_⟩
      rw [hck]
    rw [get_fst, hget, Option.map_some']
    rw [(chainOk_read s.store _ c hc none hchain).2, hcv]

/-- Witness for C5's amended theorem at a concrete input: limit 2 and three
distinct-key puts. -/
theorem C5_distinct_puts_witness :
    (runAdds (LRU.init 2 : LRU Nat Nat) [(0, 1), (1, 2), (2, 3)]).isSome = true := by
  obtain ⟨⟨s, hrun, -⟩, -⟩ := C5_distinct_puts 2 [(0, 1), (1, 2), (2, 3)]
    (by decide) (by decide) (by decide)
  rw [hrun]
  rfl

end LRUModel
